import Mathlib

/-!
Verification of the pagination-and-synchronization core of the shorts-generator
pipeline, shallowly embedded from the Python sources.

* `includeComments`, `buildPlan` embed the comment budget loop of
  `src/video/generator.py` (`__main__`, lines 322-383): title and body audio are
  generated unconditionally; comments are scanned in priority order with a
  running cumulative duration that starts at the title+body total, and the scan
  stops (`break`) at the first comment that would push the total past the budget.
* `planDurations`, `segSliceSum` embed the image-duration assembly of
  `src/video/generator.py` (lines 429-532): each audio segment with matching
  images gets `duration / imageCount` per image, and afterwards the duration
  difference between the total audio and the initial image total is added to the
  last image of the whole plan, floored at 0.01 s.  Durations are modelled as
  exact rationals.
* `wrapText` embeds `ContentImageGenerator._wrap_text`; `drawMultilineLines`
  embeds the truncation step of `ContentImageGenerator._draw_multiline`;
  `partsLoop` embeds the part-generation loop of
  `ContentImageGenerator.generate_comment_image_part` / `post_to_images`;
  `ttsRequests` embeds the comment audio loop of `src/main.py` together with the
  URL-stripping guard of `TTSGenerator.generate_audio`; `sortKeyMain` embeds
  `main.sort_audio_segments`.
-/

namespace ShortsGen

/-! ## Budget enforcer (src/video/generator.py, comment budget loop)

The loop over `comments_to_process`: given the running total `cum` (initially
the title+body audio duration) it includes a comment iff `cum + duration` stays
within the budget, and `break`s at the first comment that does not fit, so every
later comment is excluded as well. -/

def includeComments (budget : ℚ) : ℚ → List ℚ → List Bool
  | _, [] => []
  | cum, d :: ds =>
    if cum + d ≤ budget then true :: includeComments budget (cum + d) ds
    else false :: ds.map (fun _ => false)

lemma includeComments_length (budget : ℚ) :
    ∀ (ds : List ℚ) (cum : ℚ), (includeComments budget cum ds).length = ds.length := by
  intro ds
  induction ds with
  | nil => intro cum; simp [includeComments]
  | cons d ds ih =>
    intro cum
    rw [includeComments]
    split
    · simp [ih]
    · simp

lemma getD_map_const_false {α : Type} (ds : List α) (i : ℕ) :
    (ds.map (fun _ => false)).getD i false = false := by
  induction ds generalizing i with
  | nil => simp
  | cons d ds ih =>
    cases i with
    | zero => simp
    | succ j => simp only [List.map_cons, List.getD_cons_succ]; exact ih j

/-- The comment at index `i` is included iff every prefix of comments up to and
including `i` keeps the running total within the budget. -/
lemma includeComments_getD_true_iff (budget : ℚ) :
    ∀ (ds : List ℚ) (cum : ℚ) (i : ℕ), i < ds.length →
      ((includeComments budget cum ds).getD i false = true ↔
        ∀ j, j ≤ i → cum + ((ds.take (j + 1)).sum) ≤ budget) := by
  intro ds
  induction ds with
  | nil => intro cum i hi; simp at hi
  | cons d ds ih =>
    intro cum i hi
    rw [includeComments]
    by_cases hfit : cum + d ≤ budget
    · rw [if_pos hfit]
      cases i with
      | zero =>
        simp only [List.getD_cons_zero]
        constructor
        · intro _ j hj
          have hj0 : j = 0 := Nat.le_zero.mp hj
          subst hj0
          simpa using hfit
        · intro _; trivial
      | succ k =>
        have hk : k < ds.length := by simpa using Nat.lt_of_succ_lt_succ hi
        simp only [List.getD_cons_succ]
        rw [ih (cum + d) k hk]
        constructor
        · intro h j hj
          cases j with
          | zero => simpa using hfit
          | succ j =>
            have hjk : j ≤ k := Nat.le_of_succ_le_succ hj
            have := h j hjk
            simp only [List.take_succ_cons, List.sum_cons]
            linarith
        · intro h j hj
          have := h (j + 1) (Nat.succ_le_succ hj)
          simp only [List.take_succ_cons, List.sum_cons] at this
          linarith
    · rw [if_neg hfit]
      constructor
      · intro h
        exfalso
        cases i with
        | zero => simp at h
        | succ k =>
          rw [List.getD_cons_succ, getD_map_const_false] at h
          exact Bool.false_ne_true h
      · intro h
        exfalso
        have := h 0 (Nat.zero_le i)
        simp only [List.take_succ_cons, List.take_zero, List.sum_cons, List.sum_nil,
          add_zero] at this
        exact hfit this

/-- C1: budget enforcement is a priority cutoff.  A comment is included iff the
running total (starting at `cum`, the title+body duration) stays within the
budget at it and at every earlier comment; consequently once one comment is
excluded every later comment is excluded as well, even if it would fit alone. -/
theorem budget_priority_cutoff (budget cum : ℚ) (ds : List ℚ) (i : ℕ) (hi : i < ds.length) :
    ((includeComments budget cum ds).getD i false = true ↔
      ∀ j, j ≤ i → cum + ((ds.take (j + 1)).sum) ≤ budget) ∧
    ((includeComments budget cum ds).getD i false = false →
      ∀ k, i ≤ k → (includeComments budget cum ds).getD k false = false) := by
  refine ⟨includeComments_getD_true_iff budget ds cum i hi, ?_⟩
  intro hfalse k hik
  by_cases hk : k < ds.length
  · rcases Bool.eq_false_or_eq_true ((includeComments budget cum ds).getD k false) with h | h
    · exfalso
      have hall := (includeComments_getD_true_iff budget ds cum k hk).mp h
      have : (includeComments budget cum ds).getD i false = true :=
        (includeComments_getD_true_iff budget ds cum i hi).mpr
          (fun j hj => hall j (le_trans hj hik))
      rw [hfalse] at this
      exact Bool.false_ne_true this
    · exact h
  · apply List.getD_eq_default
    rw [includeComments_length]
    exact Nat.le_of_not_lt hk

theorem budget_priority_cutoff_witness :
    (((includeComments 10 0 [3, 4, 5]).getD 1 false = true ↔
      ∀ j, j ≤ 1 → (0 : ℚ) + (([3, 4, 5].take (j + 1)).sum) ≤ 10) ∧
    ((includeComments 10 0 [3, 4, 5]).getD 1 false = false →
      ∀ k, 1 ≤ k → (includeComments 10 0 [3, 4, 5]).getD k false = false)) :=
  budget_priority_cutoff 10 0 [3, 4, 5] 1 (by norm_num)

/-! ## Segment plan (src/video/generator.py lines 322-383)

Title and body audio are generated before the comment loop and are never subject
to the budget comparison; the plan is the title segment (if its audio was
generated), the body segment (if its audio was generated), then the comments the
budget loop included. -/

inductive SegId where
  | title : SegId
  | body : SegId
  | comment : ℕ → SegId
deriving DecidableEq, Repr

def buildPlan (budget : ℚ) (titleDur bodyDur : Option ℚ) (commentDurs : List ℚ) : List SegId :=
  let cum0 := titleDur.getD 0 + bodyDur.getD 0
  let incl := includeComments budget cum0 commentDurs
  (if titleDur.isSome then [SegId.title] else []) ++
    (if bodyDur.isSome then [SegId.body] else []) ++
    ((List.range commentDurs.length).filter (fun k => incl.getD k false)).map SegId.comment

/-- C3: the title and body segments are in the plan exactly when their audio
exists, for every budget value — the budget comparison never removes them, even
when the title+body duration alone exceeds the budget. -/
theorem title_body_never_trimmed (budget : ℚ) (titleDur bodyDur : Option ℚ) (cds : List ℚ) :
    (SegId.title ∈ buildPlan budget titleDur bodyDur cds ↔ titleDur.isSome = true) ∧
    (SegId.body ∈ buildPlan budget titleDur bodyDur cds ↔ bodyDur.isSome = true) := by
  unfold buildPlan
  cases titleDur <;> cases bodyDur <;> simp

/-- C9: with the segment durations fixed, a larger budget never yields a plan
with fewer segments. -/
theorem budget_monotonicity (b1 b2 : ℚ) (titleDur bodyDur : Option ℚ) (cds : List ℚ)
    (h : b1 ≤ b2) :
    (buildPlan b1 titleDur bodyDur cds).length ≤ (buildPlan b2 titleDur bodyDur cds).length := by
  unfold buildPlan
  simp only [List.length_append, List.length_map]
  have hmono : ∀ k : ℕ,
      ((includeComments b1 (titleDur.getD 0 + bodyDur.getD 0) cds).getD k false = true) →
      ((includeComments b2 (titleDur.getD 0 + bodyDur.getD 0) cds).getD k false = true) := by
    intro k hk
    by_cases hklt : k < cds.length
    · exact (includeComments_getD_true_iff b2 cds _ k hklt).mpr
        (fun j hj => le_trans ((includeComments_getD_true_iff b1 cds _ k hklt).mp hk j hj) h)
    · exfalso
      rw [List.getD_eq_default] at hk
      · exact Bool.false_ne_true hk
      · rw [includeComments_length]
        exact Nat.le_of_not_lt hklt
  have hsub := @List.monotone_filter_right ℕ (List.range cds.length)
    (fun k => (includeComments b1 (titleDur.getD 0 + bodyDur.getD 0) cds).getD k false)
    (fun k => (includeComments b2 (titleDur.getD 0 + bodyDur.getD 0) cds).getD k false)
    (fun a ha => hmono a ha)
  have := hsub.length_le
  omega

theorem budget_monotonicity_witness :
    (buildPlan 5 (some 1) none [2, 3]).length ≤ (buildPlan 10 (some 1) none [2, 3]).length :=
  budget_monotonicity 5 10 (some 1) none [2, 3] (by norm_num)

/-! ## Per-image durations (src/video/generator.py lines 429-532)

Each audio segment is a pair `(duration, imageCount)`.  Every matching image of
a segment gets `duration / imageCount`; after all segments are laid out, the
difference between the total audio duration (over all audio segments, matched or
not) and the initial image total is added to the last image of the whole list,
floored at `0.01`. -/

def pageDurations (segs : List (ℚ × ℕ)) : List (List ℚ) :=
  segs.map (fun s => List.replicate s.2 (s.1 / (s.2 : ℚ)))

def initialDurations (segs : List (ℚ × ℕ)) : List ℚ :=
  (pageDurations segs).flatten

def adjustLast : List ℚ → ℚ → List ℚ
  | [], _ => []
  | [x], diff => [max (1 / 100) (x + diff)]
  | x :: y :: xs, diff => x :: adjustLast (y :: xs) diff

def planDurations (segs : List (ℚ × ℕ)) : List ℚ :=
  adjustLast (initialDurations segs)
    ((segs.map Prod.fst).sum - (initialDurations segs).sum)

/-- Offset of segment `i`'s first image in the flattened duration list. -/
def segOffset (segs : List (ℚ × ℕ)) (i : ℕ) : ℕ :=
  ((segs.take i).map Prod.snd).sum

/-- The sum of the durations emitted for segment `i`'s images. -/
def segSliceSum (segs : List (ℚ × ℕ)) (ds : List ℚ) (i : ℕ) : ℚ :=
  ((ds.drop (segOffset segs i)).take ((segs.getD i (0, 0)).2)).sum

/-- C2 counterexample: with segments `[(5 s, 1 image), (3 s, 0 images)]` the
second audio segment has no matching image, so the whole 3 s difference is added
to the last image of the plan, which belongs to the first segment: its emitted
total is 8 s, not 5 s, off by far more than 1 ms. -/
theorem duration_exactness_counterexample :
    ¬ (∀ i, i < ([((5 : ℚ), 1), ((3 : ℚ), 0)] : List (ℚ × ℕ)).length →
        1 ≤ (([((5 : ℚ), 1), ((3 : ℚ), 0)] : List (ℚ × ℕ)).getD i (0, 0)).2 →
        |segSliceSum [((5 : ℚ), 1), ((3 : ℚ), 0)]
            (planDurations [((5 : ℚ), 1), ((3 : ℚ), 0)]) i -
          (([((5 : ℚ), 1), ((3 : ℚ), 0)] : List (ℚ × ℕ)).getD i (0, 0)).1| ≤ 1 / 1000) := by
  intro h
  have h0 := h 0 (by norm_num) (by norm_num)
  norm_num [segSliceSum, segOffset, planDurations, initialDurations, pageDurations,
    adjustLast] at h0

lemma adjustLast_zero (l : List ℚ) (hl : ∀ x ∈ l, 1 / 100 ≤ x) : adjustLast l 0 = l := by
  induction l with
  | nil => rfl
  | cons x xs ih =>
    cases xs with
    | nil =>
      have hx := hl x (by simp)
      simp only [adjustLast, add_zero]
      rw [max_eq_right hx]
    | cons y ys =>
      rw [adjustLast]
      rw [ih (fun z hz => hl z (List.mem_cons_of_mem x hz))]

lemma flatten_drop_take_getD {α : Type} (dflt : List α) :
    ∀ (blocks : List (List α)) (i : ℕ), i < blocks.length →
      ((blocks.flatten.drop (((blocks.take i).map List.length).sum)).take
        ((blocks.getD i dflt).length)) = blocks.getD i dflt := by
  intro blocks
  induction blocks with
  | nil => intro i hi; simp at hi
  | cons b bs ih =>
    intro i hi
    cases i with
    | zero =>
      simp only [List.take_zero, List.map_nil, List.sum_nil, List.drop_zero,
        List.getD_cons_zero, List.flatten_cons]
      simp
    | succ k =>
      have hk : k < bs.length := by simpa using Nat.lt_of_succ_lt_succ hi
      simp only [List.take_succ_cons, List.map_cons, List.sum_cons, List.getD_cons_succ,
        List.flatten_cons]
      rw [List.drop_append]
      exact ih k hk

/-- C2 amended: the rounding residual is applied to the last image of the whole
plan, not per segment.  Provided every audio segment in the plan has at least
one matching image and every per-image allocation is at least the 0.01 s floor,
the residual is zero, and then each segment's emitted total equals its audio
duration exactly (in particular to within 1 ms). -/
theorem duration_exactness_amended (segs : List (ℚ × ℕ))
    (hpages : ∀ s ∈ segs, 1 ≤ s.2)
    (hfloor : ∀ s ∈ segs, 1 / 100 ≤ s.1 / (s.2 : ℚ)) :
    ∀ i, i < segs.length → segSliceSum segs (planDurations segs) i = (segs.getD i (0, 0)).1 := by
  have hsum : (initialDurations segs).sum = (segs.map Prod.fst).sum := by
    unfold initialDurations pageDurations
    rw [List.sum_flatten, List.map_map]
    congr 1
    apply List.map_congr_left
    intro s hs
    have h1 : 1 ≤ s.2 := hpages s hs
    have hne : ((s.2 : ℚ)) ≠ 0 := by
      have : (0 : ℚ) < (s.2 : ℚ) := by exact_mod_cast Nat.lt_of_lt_of_le Nat.zero_lt_one h1
      exact ne_of_gt this
    simp only [Function.comp_apply, List.sum_replicate, nsmul_eq_mul]
    rw [mul_div_assoc']
    rw [mul_comm, mul_div_assoc, div_self hne, mul_one]
  have hplan : planDurations segs = initialDurations segs := by
    unfold planDurations
    rw [hsum, sub_self]
    apply adjustLast_zero
    intro x hx
    unfold initialDurations at hx
    rcases List.mem_flatten.mp hx with ⟨b, hb, hxb⟩
    unfold pageDurations at hb
    rcases List.mem_map.mp hb with ⟨s, hs, rfl⟩
    have := List.eq_of_mem_replicate hxb
    subst this
    exact hfloor s hs
  intro i hi
  rw [hplan]
  unfold segSliceSum initialDurations segOffset
  have hoff : ((segs.take i).map Prod.snd).sum
      = (((pageDurations segs).take i).map List.length).sum := by
    unfold pageDurations
    rw [← List.map_take, List.map_map]
    congr 1
    apply List.map_congr_left
    intro s _
    simp
  rw [hoff]
  have hblock : (pageDurations segs).getD i []
      = List.replicate ((segs.getD i (0, 0)).2) ((segs.getD i (0, 0)).1 / ((segs.getD i (0, 0)).2 : ℚ)) := by
    unfold pageDurations
    rw [List.getD_eq_getElem _ _ (by simpa [pageDurations] using hi),
      List.getElem_map, List.getD_eq_getElem _ _ hi]
  have hlen : ((pageDurations segs).getD i []).length = (segs.getD i (0, 0)).2 := by
    rw [hblock, List.length_replicate]
  rw [← hlen]
  rw [flatten_drop_take_getD [] (pageDurations segs) i (by simpa [pageDurations] using hi)]
  rw [hblock]
  have hmem : segs.getD i (0, 0) ∈ segs := by
    rw [List.getD_eq_getElem _ _ hi]
    exact List.getElem_mem hi
  have h1 : 1 ≤ (segs.getD i (0, 0)).2 := hpages _ hmem
  have hne : (((segs.getD i (0, 0)).2 : ℚ)) ≠ 0 := by
    have : (0 : ℚ) < ((segs.getD i (0, 0)).2 : ℚ) := by
      exact_mod_cast Nat.lt_of_lt_of_le Nat.zero_lt_one h1
    exact ne_of_gt this
  simp only [List.sum_replicate, nsmul_eq_mul]
  rw [mul_div_assoc']
  rw [mul_comm, mul_div_assoc, div_self hne, mul_one]

theorem duration_exactness_amended_witness :
    segSliceSum [((5 : ℚ), 1), ((3 : ℚ), 2)]
        (planDurations [((5 : ℚ), 1), ((3 : ℚ), 2)]) 0 =
      (([((5 : ℚ), 1), ((3 : ℚ), 2)] : List (ℚ × ℕ)).getD 0 (0, 0)).1 :=
  duration_exactness_amended [((5 : ℚ), 1), ((3 : ℚ), 2)]
    (by intro s hs; fin_cases hs <;> norm_num)
    (by intro s hs; fin_cases hs <;> norm_num) 0 (by norm_num)

/-! ## Text wrapper (ContentImageGenerator._wrap_text)

The Python routine splits the text into paragraphs on newlines and each
paragraph into words on single spaces, then builds lines greedily: it tries
`(current_line + ' ' + word).strip()`; if the measured width fits it keeps the
extended line, otherwise it emits `current_line` and restarts from the word.  A
line is modelled as its list of tokens (the words of `split(' ')` carry no
spaces, so `strip` just drops the separator next to an empty side), and the
glyph measurer as a function on token lists — `measure l` stands for the PIL
`textbbox` width of the tokens of `l` joined by single spaces. -/

def lineJoin (c : List String) (w : String) : List String :=
  if w = "" then c else c ++ [w]

structure WrapState where
  lines : List (List String)
  current : List String
deriving Repr, DecidableEq

def wrapStep (measure : List String → ℕ) (maxWidth : ℕ) (st : WrapState) (w : String) :
    WrapState :=
  if measure (lineJoin st.current w) ≤ maxWidth then ⟨st.lines, lineJoin st.current w⟩
  else ⟨st.lines ++ [st.current], lineJoin [] w⟩

def wrapPara (measure : List String → ℕ) (maxWidth : ℕ) (ws : List String) :
    List (List String) :=
  let st := ws.foldl (wrapStep measure maxWidth) ⟨[], []⟩
  if st.current = [] then st.lines else st.lines ++ [st.current]

def wrapText (measure : List String → ℕ) (maxWidth : ℕ) (paras : List (List String)) :
    List (List String) :=
  (paras.map (wrapPara measure maxWidth)).flatten

lemma wrap_fold_inv_words (M : List String → ℕ) (W : ℕ) (WS : List String) :
    ∀ (ws : List String) (st : WrapState), (∀ w ∈ ws, w ∈ WS) →
      (∀ l ∈ st.lines, M l ≤ W ∨ l = [] ∨ ∃ w ∈ WS, l = [w]) →
      (M st.current ≤ W ∨ st.current = [] ∨ ∃ w ∈ WS, st.current = [w]) →
      (∀ l ∈ (ws.foldl (wrapStep M W) st).lines, M l ≤ W ∨ l = [] ∨ ∃ w ∈ WS, l = [w]) ∧
      (M (ws.foldl (wrapStep M W) st).current ≤ W ∨ (ws.foldl (wrapStep M W) st).current = [] ∨
        ∃ w ∈ WS, (ws.foldl (wrapStep M W) st).current = [w]) := by
  intro ws
  induction ws with
  | nil => intro st _ hl hc; exact ⟨hl, hc⟩
  | cons w ws ih =>
    intro st hws hl hc
    rw [List.foldl_cons]
    have hwWS : w ∈ WS := hws w (by simp)
    have hws2 : ∀ x ∈ ws, x ∈ WS := fun x hx => hws x (List.mem_cons_of_mem w hx)
    unfold wrapStep
    split
    · exact ih ⟨st.lines, lineJoin st.current w⟩ hws2 hl (Or.inl (by assumption))
    · apply ih ⟨st.lines ++ [st.current], lineJoin [] w⟩ hws2
      · intro l hlmem
        rcases List.mem_append.mp hlmem with h | h
        · exact hl l h
        · rw [List.mem_singleton.mp h]; exact hc
      · unfold lineJoin
        by_cases hw : w = ""
        · rw [if_pos hw]; exact Or.inr (Or.inl rfl)
        · rw [if_neg hw]; exact Or.inr (Or.inr ⟨w, hwWS, by simp⟩)

/-- C4: every line the wrapper emits either fits within `maxWidth`, or is a
single input token standing alone on its own line, unmodified (the only lines
that can exceed the width bound are oversized single words). -/
theorem wrap_width_bound (M : List String → ℕ) (W : ℕ) (paras : List (List String))
    (h0 : M [] = 0) :
    ∀ l ∈ wrapText M W paras, M l ≤ W ∨ ∃ w ∈ paras.flatten, l = [w] := by
  intro l hl
  unfold wrapText at hl
  rcases List.mem_flatten.mp hl with ⟨lines, hlines, hline⟩
  rcases List.mem_map.mp hlines with ⟨ws, hws, rfl⟩
  have base := wrap_fold_inv_words M W ws ws ⟨[], []⟩ (fun _ h => h)
    (by intro x hx; simp at hx) (Or.inr (Or.inl rfl))
  unfold wrapPara at hline
  have hcases : M l ≤ W ∨ l = [] ∨ ∃ w ∈ ws, l = [w] := by
    by_cases hcur : (ws.foldl (wrapStep M W) ⟨[], []⟩).current = []
    · rw [if_pos hcur] at hline
      exact base.1 l hline
    · rw [if_neg hcur] at hline
      rcases List.mem_append.mp hline with h | h
      · exact base.1 l h
      · rw [List.mem_singleton.mp h]; exact base.2
  rcases hcases with h | h | ⟨w, hw, rfl⟩
  · exact Or.inl h
  · subst h; exact Or.inl (by rw [h0]; exact Nat.zero_le W)
  · exact Or.inr ⟨w, List.mem_flatten.mpr ⟨ws, hws, hw⟩, rfl⟩

theorem wrap_width_bound_witness :
    (fun l : List String => l.length) ["ab"] ≤ 1 ∨
      ∃ w ∈ [["a", "b"], ["ab"]].flatten, (["ab"] : List String) = [w] :=
  wrap_width_bound (fun l => l.length) 1 [["a", "b"], ["ab"]] rfl ["ab"] (by decide)

/-! ## Idempotence of rewrapping (C5)

Rejoining the wrapped lines of a paragraph with single spaces and re-splitting
on spaces yields, for every nonempty line, its own tokens, and for an emitted
empty line a single empty token.  We show that wrapping that word sequence again
reproduces the very same lines.  The measure is assumed to be that of a real
glyph measurer: the empty string has width zero, and appending a token never
decreases the width. -/

def headTok (l : List String) : String := l.headD ""

/-- The wrapper broke between consecutive output lines `a` and `b` because `a`
extended with the first token of `b` (for an empty `b`, with the empty word that
produced it) did not fit. -/
def BreakAt (M : List String → ℕ) (W : ℕ) (a b : List String) : Prop :=
  W < M (lineJoin a (headTok b))

lemma measure_le_append (M : List String → ℕ)
    (hmono : ∀ c w, M c ≤ M (c ++ [w])) :
    ∀ (c d : List String), M c ≤ M (c ++ d) := by
  intro c d
  induction d generalizing c with
  | nil => simp
  | cons x xs ih =>
    calc M c ≤ M (c ++ [x]) := hmono c x
    _ ≤ M ((c ++ [x]) ++ xs) := ih (c ++ [x])
    _ = M (c ++ x :: xs) := by rw [List.append_assoc]; rfl

structure WrapInv (M : List String → ℕ) (W : ℕ) (st : WrapState) : Prop where
  no_empty_tok : ∀ l ∈ st.lines ++ [st.current], "" ∉ l
  fits_or_single : ∀ l ∈ st.lines ++ [st.current], M l ≤ W ∨ ∃ w, l = [w]
  chain : List.Chain' (BreakAt M W) (st.lines ++ [st.current])
  head_fits : ∀ h, (st.lines ++ [st.current]).head? = some h → M h ≤ W
  last_ne : st.current = [] → ∀ h, st.lines.getLast? = some h → h ≠ []

lemma lineJoin_empty (a : List String) : lineJoin a "" = a := by
  simp [lineJoin]

lemma headTok_lineJoin_nil (a : List String) (w : String) :
    lineJoin a (headTok (lineJoin [] w)) = lineJoin a w := by
  by_cases hw : w = ""
  · subst hw; simp [lineJoin, headTok]
  · simp [lineJoin, hw, headTok]

lemma headTok_lineJoin (c : List String) (w : String) (hc : c ≠ []) :
    headTok (lineJoin c w) = headTok c := by
  unfold lineJoin
  by_cases hw : w = ""
  · rw [if_pos hw]
  · rw [if_neg hw]
    unfold headTok
    cases c with
    | nil => exact absurd rfl hc
    | cons x xs => simp

lemma lineJoin_nil_eq_nil_iff (w : String) : lineJoin [] w = [] ↔ w = "" := by
  unfold lineJoin
  by_cases hw : w = ""
  · simp [hw]
  · simp [hw]

lemma breakAt_lineJoin_iff (M : List String → ℕ) (W : ℕ) (a : List String) (w : String) :
    BreakAt M W a (lineJoin [] w) ↔ W < M (lineJoin a w) := by
  unfold BreakAt
  rw [headTok_lineJoin_nil]

lemma wrapStep_inv (M : List String → ℕ) (W : ℕ)
    (h0 : M [] = 0) (hmono : ∀ c w, M c ≤ M (c ++ [w]))
    (st : WrapState) (w : String) (hst : WrapInv M W st) :
    WrapInv M W (wrapStep M W st w) := by
  have hself : st.current ∈ st.lines ++ [st.current] := List.mem_append.mpr (Or.inr (by simp))
  unfold wrapStep
  by_cases hfit : M (lineJoin st.current w) ≤ W
  · rw [if_pos hfit]
    refine ⟨?_, ?_, ?_, ?_, ?_⟩
    · intro l hl
      rcases List.mem_append.mp hl with h | h
      · exact hst.no_empty_tok l (List.mem_append.mpr (Or.inl h))
      · rw [List.mem_singleton.mp h]
        unfold lineJoin
        by_cases hw : w = ""
        · rw [if_pos hw]
          exact hst.no_empty_tok st.current hself
        · rw [if_neg hw]
          intro hmem
          rcases List.mem_append.mp hmem with h2 | h2
          · exact hst.no_empty_tok st.current hself h2
          · exact hw (List.mem_singleton.mp h2).symm
    · intro l hl
      rcases List.mem_append.mp hl with h | h
      · exact hst.fits_or_single l (List.mem_append.mpr (Or.inl h))
      · rw [List.mem_singleton.mp h]
        exact Or.inl hfit
    · rcases List.chain'_append.mp hst.chain with ⟨hc1, _, hc3⟩
      apply List.chain'_append.mpr
      refine ⟨hc1, List.chain'_singleton _, ?_⟩
      intro x hx y hy
      simp only [List.head?_cons, Option.mem_def, Option.some.injEq] at hy
      subst hy
      have hold := hc3 x hx st.current (by simp)
      by_cases hcur : st.current = []
      · rw [hcur] at hold
        unfold BreakAt at hold
        unfold headTok at hold
        simp only [List.headD_nil] at hold
        rw [lineJoin_empty] at hold
        unfold BreakAt
        rw [hcur]
        rw [headTok_lineJoin_nil]
        unfold lineJoin
        by_cases hw : w = ""
        · rw [if_pos hw]; exact hold
        · rw [if_neg hw]
          exact lt_of_lt_of_le hold (hmono x w)
      · unfold BreakAt at hold ⊢
        rw [headTok_lineJoin st.current w hcur]
        exact hold
    · intro h hh
      cases hl : st.lines with
      | nil =>
        rw [hl] at hh
        simp only [List.nil_append, List.head?_cons, Option.some.injEq] at hh
        subst hh
        exact hfit
      | cons x xs =>
        apply hst.head_fits h
        rw [hl] at hh ⊢
        simpa using hh
    · intro hcur h hh
      have hcw : st.current = [] ∧ w = "" := by
        by_cases hw : w = ""
        · subst hw; rw [lineJoin_empty] at hcur; exact ⟨hcur, rfl⟩
        · exfalso
          unfold lineJoin at hcur
          rw [if_neg hw] at hcur
          exact List.append_ne_nil_of_right_ne_nil st.current (by simp) hcur
      exact hst.last_ne hcw.1 h hh
  · rw [if_neg hfit]
    refine ⟨?_, ?_, ?_, ?_, ?_⟩
    · intro l hl
      rcases List.mem_append.mp hl with h | h
      · exact hst.no_empty_tok l h
      · rw [List.mem_singleton.mp h]
        unfold lineJoin
        by_cases hw : w = ""
        · rw [if_pos hw]; simp
        · rw [if_neg hw]
          intro hmem
          simp only [List.nil_append, List.mem_singleton] at hmem
          exact hw hmem.symm
    · intro l hl
      rcases List.mem_append.mp hl with h | h
      · exact hst.fits_or_single l h
      · rw [List.mem_singleton.mp h]
        unfold lineJoin
        by_cases hw : w = ""
        · rw [if_pos hw]
          exact Or.inl (by rw [h0]; exact Nat.zero_le W)
        · rw [if_neg hw]
          exact Or.inr ⟨w, by simp⟩
    · apply List.chain'_append.mpr
      refine ⟨hst.chain, List.chain'_singleton _, ?_⟩
      intro x hx y hy
      simp only [List.head?_cons, Option.mem_def, Option.some.injEq] at hy
      subst hy
      have hxlast : x = st.current := by
        have hlast : (st.lines ++ [st.current]).getLast? = some st.current :=
          List.getLast?_concat st.lines
        rw [Option.mem_def] at hx
        rw [hlast] at hx
        exact (Option.some.inj hx).symm
      subst hxlast
      exact (breakAt_lineJoin_iff M W st.current w).mpr (Nat.lt_of_not_le hfit)
    · intro h hh
      cases hl : st.lines with
      | nil =>
        rw [hl] at hh
        simp only [List.nil_append, List.cons_append, List.head?_cons,
          Option.some.injEq] at hh
        subst hh
        apply hst.head_fits st.current
        rw [hl]
        simp
      | cons x xs =>
        apply hst.head_fits h
        rw [hl] at hh ⊢
        simpa using hh
    · intro hcur h hh
      have hw : w = "" := (lineJoin_nil_eq_nil_iff w).mp hcur
      have hlast : (st.lines ++ [st.current]).getLast? = some st.current :=
        List.getLast?_concat st.lines
      rw [hlast] at hh
      have hhc : h = st.current := (Option.some.inj hh).symm
      subst hhc
      intro hcnil
      apply hfit
      rw [hcnil, hw, lineJoin_empty, h0]
      exact Nat.zero_le W

lemma wrap_fold_inv (M : List String → ℕ) (W : ℕ)
    (h0 : M [] = 0) (hmono : ∀ c w, M c ≤ M (c ++ [w])) :
    ∀ (ws : List String) (st : WrapState), WrapInv M W st →
      WrapInv M W (ws.foldl (wrapStep M W) st) := by
  intro ws
  induction ws with
  | nil => intro st hst; exact hst
  | cons w ws ih =>
    intro st hst
    rw [List.foldl_cons]
    exact ih _ (wrapStep_inv M W h0 hmono st w hst)

lemma wrapInv_init (M : List String → ℕ) (W : ℕ) (h0 : M [] = 0) :
    WrapInv M W ⟨[], []⟩ := by
  refine ⟨?_, ?_, ?_, ?_, ?_⟩
  · intro l hl
    simp only [List.nil_append, List.mem_singleton] at hl
    subst hl; simp
  · intro l hl
    simp only [List.nil_append, List.mem_singleton] at hl
    subst hl
    exact Or.inl (by rw [h0]; exact Nat.zero_le W)
  · exact List.chain'_singleton _
  · intro h hh
    simp only [List.nil_append, List.head?_cons, Option.some.injEq] at hh
    subst hh
    rw [h0]; exact Nat.zero_le W
  · intro _ h hh
    simp at hh

/-- Structural facts about a wrapped paragraph: no line contains the empty
token; every line fits or is a single token; consecutive lines are separated by
a genuine overflow; the first line fits; the last line is nonempty. -/
lemma wrapPara_good (M : List String → ℕ) (W : ℕ)
    (h0 : M [] = 0) (hmono : ∀ c w, M c ≤ M (c ++ [w])) (ws : List String) :
    (∀ l ∈ wrapPara M W ws, "" ∉ l) ∧
    (∀ l ∈ wrapPara M W ws, M l ≤ W ∨ ∃ w, l = [w]) ∧
    List.Chain' (BreakAt M W) (wrapPara M W ws) ∧
    (∀ h, (wrapPara M W ws).head? = some h → M h ≤ W) ∧
    (∀ h, (wrapPara M W ws).getLast? = some h → h ≠ []) := by
  have hInv := wrap_fold_inv M W h0 hmono ws ⟨[], []⟩ (wrapInv_init M W h0)
  unfold wrapPara
  by_cases hcur : (ws.foldl (wrapStep M W) ⟨[], []⟩).current = []
  · rw [if_pos hcur]
    refine ⟨?_, ?_, ?_, ?_, ?_⟩
    · intro l hl
      exact hInv.no_empty_tok l (List.mem_append.mpr (Or.inl hl))
    · intro l hl
      exact hInv.fits_or_single l (List.mem_append.mpr (Or.inl hl))
    · exact (List.chain'_append.mp hInv.chain).1
    · intro h hh
      apply hInv.head_fits h
      cases hl : (ws.foldl (wrapStep M W) ⟨[], []⟩).lines with
      | nil => rw [hl] at hh; simp at hh
      | cons x xs => rw [hl] at hh; simpa using hh
    · exact hInv.last_ne hcur
  · rw [if_neg hcur]
    refine ⟨hInv.no_empty_tok, hInv.fits_or_single, hInv.chain, hInv.head_fits, ?_⟩
    intro h hh
    have hlast : ((ws.foldl (wrapStep M W) ⟨[], []⟩).lines ++
        [(ws.foldl (wrapStep M W) ⟨[], []⟩).current]).getLast?
        = some (ws.foldl (wrapStep M W) ⟨[], []⟩).current := List.getLast?_concat _
    rw [hlast] at hh
    have := (Option.some.inj hh).symm
    rw [← this] at hcur
    exact hcur

/-! Rejoining: each wrapped line contributes its own tokens; an emitted empty
line renders as the empty string, so between its neighbours' single separating
spaces it re-splits into one empty word. -/

def lineTokens (l : List String) : List String := if l = [] then [""] else l

def rejoinWords (L : List (List String)) : List String := (L.map lineTokens).flatten

def rejoinText (M : List String → ℕ) (W : ℕ) (paras : List (List String)) :
    List (List String) :=
  paras.map (fun ws => rejoinWords (wrapPara M W ws))

lemma take_fits (M : List String → ℕ) (hmono : ∀ c w, M c ≤ M (c ++ [w]))
    (c rest : List String) (k : ℕ) : M (c ++ rest.take k) ≤ M (c ++ rest) := by
  have hsplit : c ++ rest = (c ++ rest.take k) ++ rest.drop k := by
    rw [List.append_assoc, List.take_append_drop]
  rw [hsplit]
  exact measure_le_append M hmono _ _

lemma accept_run (M : List String → ℕ) (W : ℕ)
    (hmono : ∀ c w, M c ≤ M (c ++ [w])) :
    ∀ (rest cur : List String) (lines : List (List String)),
      "" ∉ rest → M (cur ++ rest) ≤ W →
      rest.foldl (wrapStep M W) ⟨lines, cur⟩ = ⟨lines, cur ++ rest⟩ := by
  intro rest
  induction rest with
  | nil => intro cur lines _ _; simp
  | cons t ts ih =>
    intro cur lines hne hfit
    have ht : t ≠ "" := fun h => hne (h ▸ List.mem_cons_self t ts)
    rw [List.foldl_cons]
    have hjoin : lineJoin cur t = cur ++ [t] := by simp [lineJoin, ht]
    have hcond : M (lineJoin cur t) ≤ W := by
      rw [hjoin]
      calc M (cur ++ [t]) = M (cur ++ (t :: ts).take 1) := by simp
      _ ≤ M (cur ++ t :: ts) := take_fits M hmono cur (t :: ts) 1
      _ ≤ W := hfit
    have hstep : wrapStep M W ⟨lines, cur⟩ t = ⟨lines, cur ++ [t]⟩ := by
      unfold wrapStep
      simp only [hjoin]
      rw [if_pos]
      rw [← hjoin]
      exact hcond
    rw [hstep]
    rw [ih (cur ++ [t]) lines (fun hmem => hne (List.mem_cons_of_mem t hmem)) ?hfit2]
    · rw [List.append_assoc]; rfl
    case hfit2 =>
      rw [List.append_assoc]
      exact hfit

lemma block_consume (M : List String → ℕ) (W : ℕ)
    (hmono : ∀ c w, M c ≤ M (c ++ [w]))
    (b a : List String) (lines : List (List String))
    (hbreak : BreakAt M W a b) (hne : "" ∉ b) (hfs : M b ≤ W ∨ ∃ w, b = [w]) :
    (lineTokens b).foldl (wrapStep M W) ⟨lines, a⟩ = ⟨lines ++ [a], b⟩ := by
  cases b with
  | nil =>
    have htok : lineTokens ([] : List String) = [""] := rfl
    rw [htok, List.foldl_cons, List.foldl_nil]
    unfold wrapStep
    have hcond : ¬ (M (lineJoin a "") ≤ W) := by
      unfold BreakAt at hbreak
      unfold headTok at hbreak
      simp only [List.headD_nil] at hbreak
      exact Nat.not_le.mpr hbreak
    rw [if_neg hcond]
    rw [lineJoin_empty]
  | cons t ts =>
    have ht : t ≠ "" := fun h => hne (h ▸ List.mem_cons_self t ts)
    have htok : lineTokens (t :: ts) = t :: ts := by simp [lineTokens]
    rw [htok, List.foldl_cons]
    have hcond : ¬ (M (lineJoin a t) ≤ W) := by
      unfold BreakAt at hbreak
      unfold headTok at hbreak
      simp only [List.headD_cons] at hbreak
      exact Nat.not_le.mpr hbreak
    have hstep : wrapStep M W ⟨lines, a⟩ t = ⟨lines ++ [a], [t]⟩ := by
      unfold wrapStep
      rw [if_neg hcond]
      simp [lineJoin, ht]
    rw [hstep]
    rcases hfs with hfit | ⟨w, hw⟩
    · have := accept_run M W hmono ts [t] (lines ++ [a])
        (fun hmem => hne (List.mem_cons_of_mem t hmem)) (by simpa using hfit)
      rw [this]
      rfl
    · have hts : ts = [] := by
        cases ts with
        | nil => rfl
        | cons u us => simp at hw
      subst hts
      rfl

lemma replay_blocks (M : List String → ℕ) (W : ℕ)
    (hmono : ∀ c w, M c ≤ M (c ++ [w])) :
    ∀ (bs : List (List String)) (a : List String) (lines : List (List String)),
      List.Chain' (BreakAt M W) (a :: bs) →
      (∀ b ∈ bs, "" ∉ b) → (∀ b ∈ bs, M b ≤ W ∨ ∃ w, b = [w]) →
      (rejoinWords bs).foldl (wrapStep M W) ⟨lines, a⟩ =
        ⟨lines ++ (a :: bs).dropLast, (a :: bs).getLast (by simp)⟩ := by
  intro bs
  induction bs with
  | nil =>
    intro a lines _ _ _
    simp [rejoinWords]
  | cons b bs ih =>
    intro a lines hchain hne hfs
    have hsplit : rejoinWords (b :: bs) = lineTokens b ++ rejoinWords bs := by
      simp [rejoinWords]
    rw [hsplit, List.foldl_append]
    have hab : BreakAt M W a b := (List.chain'_cons.mp hchain).1
    rw [block_consume M W hmono b a lines hab (hne b (by simp)) (hfs b (by simp))]
    rw [ih b (lines ++ [a]) (List.chain'_cons.mp hchain).2
      (fun x hx => hne x (List.mem_cons_of_mem b hx))
      (fun x hx => hfs x (List.mem_cons_of_mem b hx))]
    have hdl : (a :: b :: bs).dropLast = a :: (b :: bs).dropLast := rfl
    have hgl : (a :: b :: bs).getLast (by simp) = (b :: bs).getLast (by simp) :=
      List.getLast_cons (by simp)
    rw [hdl, hgl]
    rw [List.append_assoc]
    rfl

lemma head_consume (M : List String → ℕ) (W : ℕ)
    (h0 : M [] = 0) (hmono : ∀ c w, M c ≤ M (c ++ [w]))
    (a : List String) (hne : "" ∉ a) (hfit : M a ≤ W) :
    (lineTokens a).foldl (wrapStep M W) ⟨[], []⟩ = ⟨[], a⟩ := by
  cases a with
  | nil =>
    have htok : lineTokens ([] : List String) = [""] := rfl
    rw [htok, List.foldl_cons, List.foldl_nil]
    unfold wrapStep
    have hcond : M (lineJoin ([] : List String) "") ≤ W := by
      rw [lineJoin_empty, h0]
      exact Nat.zero_le W
    rw [if_pos hcond]
    rw [lineJoin_empty]
  | cons t ts =>
    have ht : t ≠ "" := fun h => hne (h ▸ List.mem_cons_self t ts)
    have htok : lineTokens (t :: ts) = t :: ts := by simp [lineTokens]
    rw [htok, List.foldl_cons]
    have hjoin : lineJoin ([] : List String) t = [t] := by simp [lineJoin, ht]
    have hcond : M (lineJoin ([] : List String) t) ≤ W := by
      rw [hjoin]
      calc M [t] = M ([] ++ (t :: ts).take 1) := by simp
      _ ≤ M ([] ++ t :: ts) := take_fits M hmono [] (t :: ts) 1
      _ ≤ W := by simpa using hfit
    have hstep : wrapStep M W ⟨[], []⟩ t = ⟨[], [t]⟩ := by
      unfold wrapStep
      rw [if_pos hcond]
      rw [hjoin]
    rw [hstep]
    have := accept_run M W hmono ts [t] []
      (fun hmem => hne (List.mem_cons_of_mem t hmem)) (by simpa using hfit)
    rw [this]
    rfl

lemma wrapPara_rejoin (M : List String → ℕ) (W : ℕ)
    (h0 : M [] = 0) (hmono : ∀ c w, M c ≤ M (c ++ [w])) (ws : List String) :
    wrapPara M W (rejoinWords (wrapPara M W ws)) = wrapPara M W ws := by
  obtain ⟨g0, g1, g2, g3, g4⟩ := wrapPara_good M W h0 hmono ws
  cases hL : wrapPara M W ws with
  | nil =>
    have : rejoinWords [] = [] := rfl
    rw [this]
    unfold wrapPara
    simp
  | cons a bs =>
    rw [hL] at g0 g1 g2 g3 g4
    have hsplit : rejoinWords (a :: bs) = lineTokens a ++ rejoinWords bs := by
      simp [rejoinWords]
    unfold wrapPara
    rw [hsplit, List.foldl_append]
    rw [head_consume M W h0 hmono a (g0 a (by simp)) (g3 a (by simp))]
    rw [replay_blocks M W hmono bs a [] g2
      (fun x hx => g0 x (List.mem_cons_of_mem a hx))
      (fun x hx => g1 x (List.mem_cons_of_mem a hx))]
    have hlastne : (a :: bs).getLast (by simp) ≠ [] := by
      apply g4
      exact List.getLast?_eq_getLast _ (by simp)
    simp only [List.nil_append]
    rw [if_neg hlastne]
    exact List.dropLast_append_getLast (by simp)

/-- C5: re-wrapping the wrapped output — each paragraph's lines rejoined with
single spaces, paragraph breaks preserved — with the same measure and maximum
width reproduces exactly the same line sequence.  The measure is assumed to
behave like a glyph measurer: the empty line has width zero and appending a
token never decreases the width. -/
theorem wrap_rewrap_idempotent (M : List String → ℕ) (W : ℕ) (paras : List (List String))
    (h0 : M [] = 0) (hmono : ∀ c w, M c ≤ M (c ++ [w])) :
    wrapText M W (rejoinText M W paras) = wrapText M W paras := by
  unfold wrapText rejoinText
  rw [List.map_map]
  congr 1
  apply List.map_congr_left
  intro ws _
  exact wrapPara_rejoin M W h0 hmono ws

theorem wrap_rewrap_idempotent_witness :
    wrapText (fun l => (l.map String.length).sum + l.length) 5
        (rejoinText (fun l => (l.map String.length).sum + l.length) 5
          [["aa", "bb", "cc"], ["dddddd"]]) =
      wrapText (fun l => (l.map String.length).sum + l.length) 5
        [["aa", "bb", "cc"], ["dddddd"]] :=
  wrap_rewrap_idempotent (fun l => (l.map String.length).sum + l.length) 5
    [["aa", "bb", "cc"], ["dddddd"]] rfl
    (fun c w => by simp only [List.map_append, List.sum_append, List.length_append]; omega)

/-! ## Truncation with ellipsis (ContentImageGenerator._draw_multiline)

When a line limit is set and exceeded, the first `max_lines` lines are kept and
the last kept line is shortened character by character from the end until, the
ellipsis width having been reserved, it fits; the result is stripped and the
ellipsis appended.  Lines are modelled as character lists (the Python code
slices strings), and the measure as the `textbbox` width of the characters. -/

def stripSpaces (s : List Char) : List Char :=
  ((s.dropWhile (fun c => c = ' ')).reverse.dropWhile (fun c => c = ' ')).reverse

def shortenRev (measure : List Char → ℤ) (avail : ℤ) : List Char → List Char
  | [] => []
  | c :: cs => if measure ((c :: cs).reverse) ≤ avail then c :: cs else shortenRev measure avail cs

/-- The `while` loop of `_draw_multiline`: drop trailing characters until the
measured width fits in the available width or the line is empty. -/
def shortenToFit (measure : List Char → ℤ) (avail : ℤ) (s : List Char) : List Char :=
  (shortenRev measure avail s.reverse).reverse

def truncateLastLine (measure : List Char → ℤ) (maxW : ℤ) (ell lastLine : List Char) :
    List Char :=
  stripSpaces (shortenToFit measure (maxW - measure ell) lastLine) ++ ell

def mapLast (f : List Char → List Char) : List (List Char) → List (List Char)
  | [] => []
  | [x] => [f x]
  | x :: y :: xs => x :: mapLast f (y :: xs)

def drawMultilineLines (measure : List Char → ℤ) (maxW : ℤ) (ell : List Char)
    (lines : List (List Char)) (maxLines : Option ℕ) : List (List Char) :=
  match maxLines with
  | none => lines
  | some m =>
    if m < lines.length then mapLast (truncateLastLine measure maxW ell) (lines.take m)
    else lines

/-- C6 counterexample: with a character-count measure, `maxWidth = 3`, the
three-character ellipsis and a one-line limit over the wrapped lines
`["ab", "cd"]`, the reserved ellipsis width leaves no room at all, the retained
line `"ab"` is shortened to nothing, and the emitted last line is the bare
ellipsis: the text before the ellipsis is empty although the original line was
not. -/
theorem truncation_nonempty_counterexample :
    drawMultilineLines (fun s => (s.length : ℤ)) 3 ['.', '.', '.']
        [['a', 'b'], ['c', 'd']] (some 1) = [['.', '.', '.']] ∧
    ([['a', 'b'], ['c', 'd']] : List (List Char)).take 1 = [['a', 'b']] ∧
    (['a', 'b'] : List Char) ≠ [] := by
  refine ⟨by decide, rfl, by simp⟩

lemma shortenRev_spec (measure : List Char → ℤ) (avail : ℤ) :
    ∀ s : List Char, shortenRev measure avail s = [] ∨
      measure ((shortenRev measure avail s).reverse) ≤ avail := by
  intro s
  induction s with
  | nil => exact Or.inl rfl
  | cons c cs ih =>
    rw [shortenRev]
    split
    · exact Or.inr (by assumption)
    · exact ih

lemma shortenToFit_spec (measure : List Char → ℤ) (avail : ℤ) (s : List Char) :
    shortenToFit measure avail s = [] ∨ measure (shortenToFit measure avail s) ≤ avail := by
  unfold shortenToFit
  rcases shortenRev_spec measure avail s.reverse with h | h
  · exact Or.inl (by rw [h]; rfl)
  · exact Or.inr h

lemma mapLast_eq_dropLast_append (f : List Char → List Char) :
    ∀ (l : List (List Char)) (h : l ≠ []),
      mapLast f l = l.dropLast ++ [f (l.getLast h)] := by
  intro l
  induction l with
  | nil => intro h; exact absurd rfl h
  | cons x xs ih =>
    intro h
    cases xs with
    | nil => rfl
    | cons y ys =>
      rw [mapLast]
      rw [ih (by simp)]
      have hdl : (x :: y :: ys).dropLast = x :: (y :: ys).dropLast := rfl
      have hgl : (x :: y :: ys).getLast h = (y :: ys).getLast (by simp) :=
        List.getLast_cons (by simp)
      rw [hdl, hgl]
      rfl

lemma mapLast_length (f : List Char → List Char) :
    ∀ l : List (List Char), (mapLast f l).length = l.length := by
  intro l
  induction l with
  | nil => rfl
  | cons x xs ih =>
    cases xs with
    | nil => rfl
    | cons y ys => rw [mapLast]; simp [ih]

/-- C6 amended: when the limit is exceeded only the first `maxLines` lines are
emitted; the last emitted line is the shortened-and-stripped text with the
ellipsis appended, so it ends with the ellipsis, and — for a subadditive
measure that does not grow under stripping, with the ellipsis itself fitting in
`maxWidth` — it measures at most `maxWidth`.  The text before the ellipsis,
however, may be empty even when the retained line was not (see the
counterexample), so non-emptiness is not part of the contract. -/
theorem truncation_contract (measure : List Char → ℤ) (maxW : ℤ) (ell : List Char)
    (lines : List (List Char)) (m : ℕ)
    (hm : 1 ≤ m) (hover : m < lines.length)
    (hsub : ∀ a b, measure (a ++ b) ≤ measure a + measure b)
    (hstrip : ∀ s, measure (stripSpaces s) ≤ measure s)
    (hell : measure ell ≤ maxW) :
    (drawMultilineLines measure maxW ell lines (some m)).length = m ∧
    ∃ last, (drawMultilineLines measure maxW ell lines (some m)).getLast? = some last ∧
      List.IsSuffix ell last ∧ measure last ≤ maxW := by
  have hne : lines.take m ≠ [] := by
    intro hempty
    have := congrArg List.length hempty
    simp only [List.length_take, List.length_nil] at this
    omega
  have hd : drawMultilineLines measure maxW ell lines (some m) =
      mapLast (truncateLastLine measure maxW ell) (lines.take m) := by
    show (if m < lines.length then mapLast (truncateLastLine measure maxW ell) (lines.take m)
      else lines) = mapLast (truncateLastLine measure maxW ell) (lines.take m)
    rw [if_pos hover]
  rw [hd]
  constructor
  · rw [mapLast_length]
    simp only [List.length_take]
    omega
  · refine ⟨truncateLastLine measure maxW ell ((lines.take m).getLast hne), ?_, ?_, ?_⟩
    · rw [mapLast_eq_dropLast_append _ _ hne]
      exact List.getLast?_concat _
    · exact List.suffix_append _ ell
    · unfold truncateLastLine
      rcases shortenToFit_spec measure (maxW - measure ell) ((lines.take m).getLast hne)
        with h | h
      · rw [h]
        have hstripnil : stripSpaces [] = [] := rfl
        rw [hstripnil, List.nil_append]
        exact hell
      · calc measure (stripSpaces (shortenToFit measure (maxW - measure ell)
              ((lines.take m).getLast hne)) ++ ell)
            ≤ measure (stripSpaces (shortenToFit measure (maxW - measure ell)
              ((lines.take m).getLast hne))) + measure ell := hsub _ _
        _ ≤ measure (shortenToFit measure (maxW - measure ell)
              ((lines.take m).getLast hne)) + measure ell := by
            have := hstrip (shortenToFit measure (maxW - measure ell)
              ((lines.take m).getLast hne))
            linarith
        _ ≤ (maxW - measure ell) + measure ell := by linarith
        _ = maxW := by ring

lemma stripSpaces_length_le (s : List Char) : (stripSpaces s).length ≤ s.length := by
  unfold stripSpaces
  rw [List.length_reverse]
  calc ((s.dropWhile (fun c => c = ' ')).reverse.dropWhile (fun c => c = ' ')).length
      ≤ (s.dropWhile (fun c => c = ' ')).reverse.length :=
        (List.dropWhile_sublist _).length_le
  _ = (s.dropWhile (fun c => c = ' ')).length := List.length_reverse _
  _ ≤ s.length := (List.dropWhile_sublist _).length_le

theorem truncation_contract_witness :
    ((drawMultilineLines (fun s => (s.length : ℤ)) 10 ['.', '.', '.']
        [['a'], ['b']] (some 1)).length = 1 ∧
    ∃ last, (drawMultilineLines (fun s => (s.length : ℤ)) 10 ['.', '.', '.']
        [['a'], ['b']] (some 1)).getLast? = some last ∧
      List.IsSuffix ['.', '.', '.'] last ∧ (last.length : ℤ) ≤ 10) :=
  truncation_contract (fun s => (s.length : ℤ)) 10 ['.', '.', '.'] [['a'], ['b']] 1
    (by norm_num) (by norm_num)
    (fun a b => by simp)
    (fun s => by
      show ((stripSpaces s).length : ℤ) ≤ (s.length : ℤ)
      exact_mod_cast stripSpaces_length_le s)
    (by norm_num)

/-! ## Comment part-generation loop (ContentImageGenerator.generate_comment_image_part
and the while loop of post_to_images)

`generate_comment_image_part` walks the wrapped comment lines from
`start_line_index`, counting how many consecutive lines fit in the available
text height (`line k` fits iff `(k+1) * lineHeight` stays within it), and
returns `start + fitted` as the next start index.  `post_to_images` loops while
the start index is below the number of wrapped lines.  The loop is modelled
with explicit fuel: `none` means the fuel was exhausted with lines still
remaining. -/

def partFitCount (remaining : ℕ) (lineH availH : ℤ) : ℕ :=
  ((List.range remaining).takeWhile (fun k => ((k : ℤ) + 1) * lineH ≤ availH)).length

def partNextIndex (numLines start : ℕ) (lineH availH : ℤ) : ℕ :=
  start + partFitCount (numLines - start) lineH availH

def partsLoop (lineH availH : ℤ) (numLines : ℕ) : ℕ → ℕ → Option ℕ
  | 0, start => if start < numLines then none else some 0
  | fuel + 1, start =>
    if start < numLines then
      (partsLoop lineH availH numLines fuel (partNextIndex numLines start lineH availH)).map
        (· + 1)
    else some 0

/-- The fixed geometry of `generate_comment_image_part` (width 720, height 1280,
padding 30, header/info bar 100, footer 50): the text height available to one
comment part under a title of `titleLines` wrapped lines drawn at
`fontTitleSize`, clamped at zero. -/
def commentAvailTextHeight (titleLines fontTitleSize : ℕ) : ℤ :=
  let padding : ℤ := 30
  let headerH : ℤ := 100
  let infoBarH : ℤ := 100
  let footer : ℤ := 50
  let height : ℤ := 1280
  let titleStartY := headerH + padding
  let currentY := titleStartY + (titleLines : ℤ) * ((fontTitleSize : ℤ) + 15) + padding
  let infoBarY := height - footer - infoBarH
  let maxEnd := infoBarY - padding
  max 0 ((maxEnd - currentY) - padding)

/-- C8: a 17-line title at font size 38 leaves 9 px of text height, less than
one comment line (36 + 8 = 44 px), so `generate_comment_image_part` fits zero
lines and returns the unchanged start index, and the part loop of
`post_to_images` never terminates (it returns `none` for every amount of
fuel while 3 wrapped lines remain). -/
theorem comment_part_loop_stuck :
    commentAvailTextHeight 17 38 = 9 ∧
    partNextIndex 3 0 44 (commentAvailTextHeight 17 38) = 0 ∧
    ∀ fuel : ℕ, partsLoop 44 (commentAvailTextHeight 17 38) 3 fuel 0 = none := by
  have hnext : partNextIndex 3 0 44 (commentAvailTextHeight 17 38) = 0 := by decide
  refine ⟨by decide, hnext, ?_⟩
  intro fuel
  induction fuel with
  | zero => rfl
  | succ n ih =>
    rw [partsLoop]
    rw [if_pos (by norm_num)]
    rw [hnext, ih]
    rfl

/-! ## Comment audio requests (src/main.py comment loop + TTSGenerator)

`main` builds `"{author}: {body}"` from the raw comment body for each of the
top-N comments by score and calls `generate_audio` on it; `generate_audio`
strips URLs from that full text and skips synthesis only when the cleaned text
has fewer than two characters after stripping.  URL stripping itself is the
`_remove_urls` regex, treated as an oracle function `clean`. -/

structure RComment where
  author : String
  body : String
  score : ℤ
deriving Repr, DecidableEq

def authorOrDeleted (a : String) : String := if a = "" then "[Deleted]" else a

def attributedText (c : RComment) : String := authorOrDeleted c.author ++ ": " ++ c.body

def insertDesc (c : RComment) : List RComment → List RComment
  | [] => [c]
  | x :: xs => if c.score > x.score then c :: x :: xs else x :: insertDesc c xs

/-- `sorted(comments, key=score, reverse=True)` — stable descending sort. -/
def sortByScoreDesc (cs : List RComment) : List RComment :=
  cs.foldl (fun acc c => insertDesc c acc) []

/-- Python `str.strip` on the character data of a string. -/
def stripString (s : String) : String := String.mk (stripSpaces s.data)

/-- The synthesis requests the main pipeline issues for a post's comments: one
per processed comment, with the URL-cleaned attributed text, unless the cleaned
text has fewer than 2 characters after stripping. -/
def ttsRequests (clean : String → String) (cs : List RComment) (maxN : ℕ) : List String :=
  ((sortByScoreDesc cs).take maxN).filterMap (fun c =>
    let ct := clean (attributedText c)
    if (stripString ct).length < 2 then none else some ct)

/-- Frames generated for one comment by `post_to_images`: a comment whose body
is empty after URL stripping is skipped before any image is produced; otherwise
the wrapped lines go through the part loop. -/
def commentFrameCount (clean : String → String) (wrappedLineCount : ℕ)
    (lineH availH : ℤ) (fuel : ℕ) (c : RComment) : Option ℕ :=
  if clean c.body = "" then some 0
  else partsLoop lineH availH wrappedLineCount fuel 0

/-- The value of the `_remove_urls` regex on the two strings of the failing
input: it deletes `http://example.com` wherever it occurs and strips the
remaining whitespace, so the bare URL maps to the empty string and the
attributed text keeps its author prefix. -/
def cleanCex : String → String := fun s =>
  if s = "http://example.com" then ""
  else if s = "alice: http://example.com" then "alice:"
  else s

/-- C7: for a comment whose body is a bare URL (empty after URL stripping) the
image generator produces zero frames, but the main pipeline still issues one
synthesis request for it — the attributed text keeps the author prefix
`"alice:"`, which survives the TTS generator's own emptiness guard. -/
theorem empty_comment_tts_request :
    ttsRequests cleanCex [⟨"alice", "http://example.com", 10⟩] 5 = ["alice:"] ∧
    commentFrameCount cleanCex 3 44 500 100 ⟨"alice", "http://example.com", 10⟩ = some 0 := by
  constructor
  · rfl
  · rfl

/-! ## Audio segment sort keys (src/main.py, sort_audio_segments)

The key function maps `title_*` filenames to the bare integer 0, `body_*` to
the bare integer 1, and `comment<k>_<p>` filenames to the pair `(2+k, p)`. -/

inductive PyKey where
  | int : ℕ → PyKey
  | tuple : ℕ → ℕ → PyKey
deriving DecidableEq, Repr

def sortKeyMain : SegId → PyKey
  | SegId.title => PyKey.int 0
  | SegId.body => PyKey.int 1
  | SegId.comment k => PyKey.tuple (2 + k) 1

def isIntKey : PyKey → Bool
  | PyKey.int _ => true
  | PyKey.tuple _ _ => false

def isTupleKey : PyKey → Bool
  | PyKey.int _ => false
  | PyKey.tuple _ _ => true

/-- Modelled from the Python runtime: `sorted` orders keys with `<`, and CPython
raises `TypeError` as soon as an `int` key is compared with a `tuple` key.  A
key list containing both kinds always forces such a comparison (the sort must
order the mixed pair), so the sort raises exactly when both kinds occur. -/
def sortedRaisesTypeError (ks : List PyKey) : Bool :=
  ks.any isIntKey && ks.any isTupleKey

/-- The identifiers in `audio_segment_map`, in insertion order: `title_1` if
title audio was generated, then `body_1`, then `comment<k>_1` for the processed
comments (1-based display index). -/
def audioSegmentIds (hasTitle hasBody : Bool) (numComments : ℕ) : List SegId :=
  (if hasTitle then [SegId.title] else []) ++
    (if hasBody then [SegId.body] else []) ++
    (List.range numComments).map (fun k => SegId.comment (k + 1))

/-- C10: whenever the audio segment map holds a title or body entry together
with at least one comment entry, sorting the segments with
`main.sort_audio_segments` compares a bare integer key with a tuple key and
raises `TypeError`, so per-post plan construction fails on every such post. -/
theorem sort_key_type_error (hasTitle hasBody : Bool) (n : ℕ)
    (h1 : hasTitle = true ∨ hasBody = true) (h2 : 0 < n) :
    sortedRaisesTypeError ((audioSegmentIds hasTitle hasBody n).map sortKeyMain) = true := by
  unfold sortedRaisesTypeError audioSegmentIds
  simp only [Bool.and_eq_true, List.any_eq_true, List.map_append, List.mem_append]
  constructor
  · rcases h1 with h | h
    · subst h
      exact ⟨PyKey.int 0, Or.inl (Or.inl (by simp [sortKeyMain])), rfl⟩
    · subst h
      exact ⟨PyKey.int 1, Or.inl (Or.inr (by simp [sortKeyMain])), rfl⟩
  · refine ⟨PyKey.tuple 3 1, Or.inr ?_, rfl⟩
    simp only [List.mem_map]
    exact ⟨SegId.comment 1, ⟨0, List.mem_range.mpr h2, rfl⟩, rfl⟩

theorem sort_key_type_error_witness :
    sortedRaisesTypeError ((audioSegmentIds true false 1).map sortKeyMain) = true :=
  sort_key_type_error true false 1 (Or.inl rfl) (by norm_num)

end ShortsGen
